import Mathlib

/-!
# Execution-node block ingestion core: shallow embedding

This development embeds the execution-node block ingestion and state
progression core (ingestion engine, execution queue, stop controller,
collection handling, and the chunk constructor) as an executable
event-driven state machine, and proves the documented invariants and
scenarios about it.

Identifiers and state commitments are modelled as natural numbers
(opaque 32-byte hashes in the original).  Every externally observable
interaction of the engine (block-body fetches, collection requests,
collection stores, `ComputeBlock` submissions, uploads, result
persistence, queue removal) is recorded in an ordered observation log,
so that ordering ("happens-before") properties can be stated about a
single run.  Concurrency is modelled by interleaving: each ingress
event and each computation completion is an atomic step (the original
protects each shared structure with a single mutex), and properties are
proved over all event sequences.
-/

/-- Association-list lookup for `Nat`-keyed stores (commitments, result ids).
The first binding of a key wins, and bindings are only ever appended, so a
published value is never changed by later writes ("write once"). -/
def alookup (k : Nat) : List (Nat × Nat) → Option Nat
  | [] => none
  | (a, v) :: rest => if a = k then some v else alookup k rest

/-- Modelled from the spec: `BlockHeader` (§3 data model) — the fields the
ingestion core consults: `{id, parentId, height}`. -/
structure BlockHeader where
  id : Nat
  parentId : Nat
  height : Nat
deriving DecidableEq, Repr

/-- Modelled from the spec: a block as the ingestion core sees it — a header
plus the ids of the guaranteed collections embedded in its payload (§3). -/
structure Block where
  header : BlockHeader
  guarantees : List Nat
deriving DecidableEq, Repr

/-- Modelled from the spec: an execution-queue entry (§3, §4.3): the block,
its `Executing` flag, and the `previousResultId` that was handed to
`ComputeBlock` when the entry was submitted (0 before submission). -/
structure QueueEntry where
  block : Block
  executing : Bool
  prevUsed : Nat
deriving DecidableEq, Repr

/-- Modelled from the spec: the part of a persisted `ComputationResult`
that the claims are about (§3, §4.1): which block, its parent, the
`PreviousResultID` the result chains to, the fresh result id, and the new
state commitment. -/
structure SavedResult where
  blockId : Nat
  parentId : Nat
  previousResultId : Nat
  resultId : Nat
  commit : Nat
deriving DecidableEq, Repr

/-- One observable interaction of the engine with its collaborators, in the
order it was issued.  `byID` is a block-body fetch from block storage,
`request` an outgoing collection request, `store` a call to the local
collection store, `compute` a `ComputeBlock` submission, `upload` the upload
collaborator (with its failure flag), `save` a `SaveExecutionResults` call,
and `onExecuted` the queue/stop-controller `OnExecuted` notification. -/
inductive LogEvent where
  | byID (blockId : Nat)
  | request (colId : Nat)
  | store (colId : Nat)
  | compute (header : BlockHeader) (previousResultId : Nat)
  | upload (blockId : Nat) (failed : Bool)
  | save (blockId : Nat)
  | onExecuted (blockId : Nat)
deriving DecidableEq, Repr

/-- Modelled from the spec: the shared state of the ingestion core (§4, §5):
state-commitment store, execution-result ids, persisted results, the
execution queue, the collection store and inflight requests, and the stop
controller (`stopBeforeHeight`, the `executionStopped` latch, and the
pending boundary block recorded when finalization crosses the stop height
before the boundary block finished executing). -/
structure EngineState where
  commits : List (Nat × Nat)
  resultIds : List (Nat × Nat)
  saved : List SavedResult
  queue : List QueueEntry
  storedCols : List Nat
  requestedCols : List Nat
  stop : Option Nat
  stopped : Bool
  stopAfterExecuting : Option Nat
  log : List LogEvent
deriving DecidableEq, Repr

/-- Identifier of a queue entry's block. -/
def qid (e : QueueEntry) : Nat := e.block.header.id

/-- Parent identifier of a queue entry's block. -/
def qparent (e : QueueEntry) : Nat := e.block.header.parentId

/-- Modelled from the spec: `StopControl.ShouldExecute` (§4.5) — false once
the `executionStopped` latch is set, or whenever a stop height is set and
the block's height is at or above it (the engine drops such blocks at
announcement time already, before the stop is armed; see the stop tests). -/
def shouldExecute (s : EngineState) (height : Nat) : Bool :=
  !s.stopped &&
    (match s.stop with
     | none => true
     | some stopH => decide (height < stopH))

/-- Modelled from the spec: the readiness check of `TryExecuteHead` (§4.3):
an entry may be submitted iff it is not already executing, every guaranteed
collection is in the local store, the parent's state commitment is known
(this is the `StartState`), and the stop controller permits the height. -/
def entryReady (s : EngineState) (e : QueueEntry) : Bool :=
  !e.executing &&
  e.block.guarantees.all (fun c => s.storedCols.contains c) &&
  (alookup e.block.header.parentId s.commits).isSome &&
  shouldExecute s e.block.header.height

/-- Modelled from the spec: `GetExecutionResultID(parentId)` (§4.1), used to
chain the `previousResultId` argument of `ComputeBlock`. -/
def prevRid (s : EngineState) (parentId : Nat) : Nat :=
  (alookup parentId s.resultIds).getD 0

/-- Submission of one ready entry: flag it `Executing` and remember the
parent execution-result id handed to `ComputeBlock`. -/
def fireEntry (s : EngineState) (e : QueueEntry) : QueueEntry :=
  if entryReady s e then
    { e with executing := true, prevUsed := prevRid s e.block.header.parentId }
  else e

/-- The `ComputeBlock` call issued for a ready entry. -/
def computeEv (s : EngineState) (e : QueueEntry) : LogEvent :=
  LogEvent.compute e.block.header (prevRid s e.block.header.parentId)

/-- Modelled from the spec: submit every ready queue entry to the
computation collaborator (§4.3 `TryExecuteHead` + §4.6 step 2): each ready
entry is flagged `Executing` and a `ComputeBlock` call carrying the parent's
execution-result id is issued. -/
def tryExecuteAll (s : EngineState) : EngineState :=
  { s with
    queue := s.queue.map (fireEntry s),
    log := s.log ++ (s.queue.filter (fun e => entryReady s e)).map (computeEv s) }

/-- Modelled from the spec: `handleBlock` (§4.6 step 1 + §4.3 `Enqueue`):
a block already executed is a no-op (§9, consult the commitment store before
enqueueing); enqueueing is idempotent per block id (I6); otherwise a fresh
entry is created, missing collections are requested (at most one inflight
request per collection id, I5), and ready entries are submitted. -/
def handleBlock (s : EngineState) (b : Block) : EngineState :=
  if (alookup b.header.id s.commits).isSome then s
  else if s.queue.any (fun e => e.block.header.id == b.header.id) then s
  else
    let toReq := (b.guarantees.filter (fun c => !(s.storedCols.contains c))).filter
      (fun c => !(s.requestedCols.contains c))
    tryExecuteAll { s with
      queue := s.queue ++ [⟨b, false, 0⟩],
      requestedCols := s.requestedCols ++ toReq,
      log := s.log ++ toReq.map LogEvent.request }

/-- Modelled from the spec: `BlockProcessable` (§4.6): if the stop controller
refuses the header's height the notification is dropped without touching
block storage; otherwise the block body is fetched (`blocks.ByID`) and
handed to `handleBlock`. -/
def blockProcessable (s : EngineState) (b : Block) : EngineState :=
  if shouldExecute s b.header.height then
    handleBlock { s with log := s.log ++ [LogEvent.byID b.header.id] } b
  else s

/-- Modelled from the spec: `OnCollection` (§4.2): a collection already in
the local store is ignored (duplicate delivery is a no-op, G4); otherwise it
is stored exactly once, the inflight request is cleared, and blocks now
complete are submitted. -/
def onCollection (s : EngineState) (c : Nat) : EngineState :=
  if s.storedCols.contains c then s
  else
    tryExecuteAll { s with
      storedCols := s.storedCols ++ [c],
      requestedCols := s.requestedCols.filter (fun x => x != c),
      log := s.log ++ [LogEvent.store c] }

/-- Modelled from the spec: completion of a block's computation (§4.6
step 3): on success the engine runs the upload collaborator (its failure is
recorded but never propagated), then `SaveExecutionResults` (persisting the
commitment, the result id, and the chained result), then `OnExecuted`
(removing the entry, releasing the stop controller's pending boundary block
if this was it), strictly in that order, and finally submits any children
that became ready.  A completion for a block that is not currently
executing is rejected. -/
def finishExecution (s : EngineState) (b : Nat) (newCommit : Nat) (rid : Nat)
    (uploadFailed : Bool) : EngineState :=
  match s.queue.find? (fun e => e.block.header.id == b && e.executing) with
  | none => s
  | some e =>
    let stopNow := s.stopAfterExecuting == some b
    tryExecuteAll { s with
      commits := s.commits ++ [(b, newCommit)],
      resultIds := s.resultIds ++ [(b, rid)],
      saved := s.saved ++ [⟨b, e.block.header.parentId, e.prevUsed, rid, newCommit⟩],
      queue := s.queue.filter (fun e2 => e2.block.header.id != b),
      stopped := s.stopped || stopNow,
      stopAfterExecuting := if stopNow then none else s.stopAfterExecuting,
      log := s.log ++ [LogEvent.upload b uploadFailed, LogEvent.save b,
                       LogEvent.onExecuted b] }

/-- Modelled from the spec: `OnBlockFinalized` of the stop controller (§4.5):
when finalization reaches the stop height, the execution state of the
boundary block (the finalized header's parent, at height `stopBeforeHeight - 1`)
is checked under the same lock that publishes `executionStopped`: if the
boundary block is executed the latch is set immediately, otherwise the
boundary block id is recorded and the latch is set when it finishes. -/
def blockFinalized (s : EngineState) (h : BlockHeader) : EngineState :=
  if s.stopped then s
  else
    match s.stop with
    | none => s
    | some stopH =>
      if s.stopAfterExecuting.isSome then s
      else if h.height == stopH then
        if (alookup h.parentId s.commits).isSome then { s with stopped := true }
        else { s with stopAfterExecuting := some h.parentId }
      else s

/-- An ingress event of the engine, or a computation completion chosen by
the scheduler.  Properties are proved over all interleavings. -/
inductive Event where
  | blockProcessableEv (b : Block)
  | handleBlockEv (b : Block)
  | onCollectionEv (c : Nat)
  | finishExecutionEv (b : Nat) (newCommit : Nat) (rid : Nat) (uploadFailed : Bool)
  | blockFinalizedEv (h : BlockHeader)
deriving DecidableEq, Repr

/-- One atomic step of the core. -/
def step (s : EngineState) : Event → EngineState
  | .blockProcessableEv b => blockProcessable s b
  | .handleBlockEv b => handleBlock s b
  | .onCollectionEv c => onCollection s c
  | .finishExecutionEv b c rid f => finishExecution s b c rid f
  | .blockFinalizedEv h => blockFinalized s h

/-- Run of the core over a sequence of events. -/
def run (s : EngineState) (evs : List Event) : EngineState := evs.foldl step s

/-- Start state: the commitments and result ids of the already-executed
chain (at least the last sealed block), an optional `stopBeforeHeight`, and
everything else empty. -/
def initState (seedCommits seedResults : List (Nat × Nat)) (stopHeight : Option Nat) :
    EngineState :=
  { commits := seedCommits, resultIds := seedResults, saved := [], queue := [],
    storedCols := [], requestedCols := [], stop := stopHeight, stopped := false,
    stopAfterExecuting := none, log := [] }

/-- The `ComputeBlock` calls recorded in a log, in submission order. -/
def computeLog (l : List LogEvent) : List (BlockHeader × Nat) :=
  l.filterMap (fun ev => match ev with
    | LogEvent.compute h p => some (h, p)
    | _ => none)

/-- The block ids submitted to `ComputeBlock`, in submission order. -/
def computeIds (l : List LogEvent) : List Nat :=
  (computeLog l).map (fun c => c.1.id)

/-- The block-body fetches (`blocks.ByID`) recorded in a log. -/
def byIDLog (l : List LogEvent) : List Nat :=
  l.filterMap (fun ev => match ev with
    | LogEvent.byID b => some b
    | _ => none)

/-- The local collection-store calls recorded in a log. -/
def storeLog (l : List LogEvent) : List Nat :=
  l.filterMap (fun ev => match ev with
    | LogEvent.store c => some c
    | _ => none)

/-- A state with its observation log erased; two states equal under
`eraseLog` behave identically (the log is pure observation). -/
def eraseLog (s : EngineState) : EngineState := { s with log := [] }

/-- The `SaveExecutionResults` calls recorded in a log, in order. -/
def saveLog (l : List LogEvent) : List Nat :=
  l.filterMap (fun ev => match ev with
    | LogEvent.save b => some b
    | _ => none)

/-- Accumulates (into `seen`) the ids whose `SaveExecutionResults` call
appears in the log. -/
def savesAcc (seen : List Nat) : List LogEvent → List Nat
  | [] => seen
  | LogEvent.save b :: rest => savesAcc (b :: seen) rest
  | _ :: rest => savesAcc seen rest

/-- Checks, scanning the log left to right, that every `ComputeBlock` call
is preceded by the `SaveExecutionResults` call of its parent — unless the
parent belongs to the pre-executed seed chain `seedC`.  `seen` carries the
saves already scanned. -/
def chainOK (seedC : List (Nat × Nat)) (seen : List Nat) : List LogEvent → Bool
  | [] => true
  | LogEvent.save b :: rest => chainOK seedC (b :: seen) rest
  | LogEvent.compute h _ :: rest =>
      ((alookup h.parentId seedC).isSome || seen.contains h.parentId) &&
        chainOK seedC seen rest
  | _ :: rest => chainOK seedC seen rest

/-- Descendant relation realised inside the execution queue: `QueueDesc s eB eD`
holds when a chain of queue entries links ancestor `eB` down to `eD` by
parent edges. -/
inductive QueueDesc (s : EngineState) : QueueEntry → QueueEntry → Prop where
  | parent : ∀ eB eD, eB ∈ s.queue → eD ∈ s.queue →
      eD.block.header.parentId = eB.block.header.id → QueueDesc s eB eD
  | trans : ∀ eB eM eD, QueueDesc s eB eM → QueueDesc s eM eD → QueueDesc s eB eD

/-- The safety invariant of the core (I1, I2, I6 of §3 and P1 of §8): queue
entries are unique per block id, queued blocks are unexecuted, an executing
entry's parent has a persisted commitment, `ComputeBlock` submissions are
unique per block id, and every submitted id is either currently executing
or already committed. -/
structure CoreInv (s : EngineState) : Prop where
  queue_nodup : (s.queue.map qid).Nodup
  queue_nocommit : ∀ e ∈ s.queue, alookup (qid e) s.commits = none
  exec_parent : ∀ e ∈ s.queue, e.executing = true →
    (alookup (qparent e) s.commits).isSome = true
  calls_nodup : (computeIds s.log).Nodup
  calls_source : ∀ b ∈ computeIds s.log,
    (∃ e ∈ s.queue, qid e = b ∧ e.executing = true) ∨
      (alookup b s.commits).isSome = true

/-- The result-chaining invariant (P2 of §8): every executed block has a
result id, every `ComputeBlock` call carries the parent's result id, every
executing entry remembers exactly the parent result id it was submitted
with, and every persisted result chains to the parent's result id. -/
structure ChainInv (s : EngineState) : Prop where
  cr : ∀ p, (alookup p s.commits).isSome = true →
    (alookup p s.resultIds).isSome = true
  calls_prev : ∀ h prev, LogEvent.compute h prev ∈ s.log →
    alookup h.parentId s.resultIds = some prev
  exec_prev : ∀ e ∈ s.queue, e.executing = true →
    alookup (qparent e) s.resultIds = some e.prevUsed
  saved_chain : ∀ r ∈ s.saved, alookup r.parentId s.resultIds = some r.previousResultId

/-- The happens-before invariant (G2 of §5): in the observation log, every
`ComputeBlock` call is preceded by the `SaveExecutionResults` call of its
parent (unless the parent is in the pre-executed seed chain `sc`), and every
committed block outside the seed chain has a save in the log. -/
structure OrderInv (sc : List (Nat × Nat)) (s : EngineState) : Prop where
  ok : chainOK sc [] s.log = true
  committed : ∀ p, (alookup p s.commits).isSome = true →
    (alookup p sc).isSome = true ∨ p ∈ savesAcc [] s.log

/-- The stop invariant (G3 of §5): the configured stop height never changes
during a run and every `ComputeBlock` call is strictly below it. -/
structure StopInv (stopH : Nat) (s : EngineState) : Prop where
  stop_eq : s.stop = some stopH
  calls_below : ∀ h prev, LogEvent.compute h prev ∈ s.log → h.height < stopH

/-- Modelled from the spec: the chunk of a computation result as built by
the chunk constructor `flow.NewChunk` — `Index` and `CollectionIndex` are
both set from the collection-index argument, and the transaction count and
total computation used are copied from their arguments (ids and state
commitments are opaque). -/
structure Chunk where
  collectionIndex : Nat
  startState : Nat
  eventCollection : Nat
  blockID : Nat
  totalComputationUsed : Nat
  numberOfTransactions : Nat
  index : Nat
  endState : Nat
deriving DecidableEq, Repr

/-- Modelled from the spec: `flow.NewChunk(blockID, collectionIndex,
startState, numberOfTransactions, eventCollection, endState,
totalComputationUsed)` — the constructor of a chunk. -/
def NewChunk (blockID : Nat) (collectionIndex : Nat) (startState : Nat)
    (numberOfTransactions : Nat) (eventCollection : Nat) (endState : Nat)
    (totalComputationUsed : Nat) : Chunk :=
  { collectionIndex := collectionIndex
    startState := startState
    eventCollection := eventCollection
    blockID := blockID
    totalComputationUsed := totalComputationUsed
    numberOfTransactions := numberOfTransactions
    index := collectionIndex
    endState := endState }

/-- Seed commitments: the sealed block 0 carries commitment 100. -/
def seedC : List (Nat × Nat) := [(0, 100)]

/-- Seed execution-result ids: the sealed block 0 has result id 50. -/
def seedR : List (Nat × Nat) := [(0, 50)]

/-- Block constructor helper for the concrete scenarios. -/
def blk (i p ht : Nat) (gs : List Nat) : Block := ⟨⟨i, p, ht⟩, gs⟩

/-- Scenario S3 (reload flood): block B (id 1) is handled four times, then
its child C (id 2, one guaranteed collection 10); the collection arrives,
then both computations finish. -/
def traceS3 : List Event :=
  [.handleBlockEv (blk 1 0 1 []), .handleBlockEv (blk 1 0 1 []),
   .handleBlockEv (blk 1 0 1 []), .handleBlockEv (blk 1 0 1 []),
   .handleBlockEv (blk 2 1 2 [10]), .onCollectionEv 10,
   .finishExecutionEv 1 201 51 false, .finishExecutionEv 2 202 52 false]

/-- Scenario S2 (fan-out): A(1) <- B(2), A(1) <- C(3) <- D(4); completions
in the order A, B, C, D. -/
def traceS2a : List Event :=
  [.handleBlockEv (blk 1 0 1 []), .handleBlockEv (blk 2 1 2 []),
   .handleBlockEv (blk 3 1 2 []), .handleBlockEv (blk 4 3 3 []),
   .finishExecutionEv 1 201 51 false, .finishExecutionEv 2 202 52 false,
   .finishExecutionEv 3 203 53 false, .finishExecutionEv 4 204 54 false]

/-- Scenario S2 with the siblings finishing in the other order (C before B). -/
def traceS2b : List Event :=
  [.handleBlockEv (blk 1 0 1 []), .handleBlockEv (blk 2 1 2 []),
   .handleBlockEv (blk 3 1 2 []), .handleBlockEv (blk 4 3 3 []),
   .finishExecutionEv 1 201 51 false, .finishExecutionEv 3 203 53 false,
   .finishExecutionEv 2 202 52 false, .finishExecutionEv 4 204 54 false]

/-- Scenario S5 (stop at height 3): blocks A(1), B(2), C(3), D(4) announced,
A and B execute, then A, B, C, D finalize in order. -/
def traceS5 : List Event :=
  [.blockProcessableEv (blk 1 0 1 []), .blockProcessableEv (blk 2 1 2 []),
   .blockProcessableEv (blk 3 2 3 []), .blockProcessableEv (blk 4 3 4 []),
   .finishExecutionEv 1 201 51 false, .finishExecutionEv 2 202 52 false,
   .blockFinalizedEv ⟨1, 0, 1⟩, .blockFinalizedEv ⟨2, 1, 2⟩,
   .blockFinalizedEv ⟨3, 2, 3⟩, .blockFinalizedEv ⟨4, 3, 4⟩]

/-- Stop race, interleaving 1: the boundary block A finishes before the
finalization of B (the block at the stop height) is handled. -/
def traceRace1 : List Event :=
  [.blockProcessableEv (blk 1 0 1 []), .blockProcessableEv (blk 2 1 2 []),
   .finishExecutionEv 1 201 51 false, .blockFinalizedEv ⟨2, 1, 2⟩]

/-- Stop race, interleaving 2: the finalization of B is handled while A is
still executing; A finishes afterwards. -/
def traceRace2 : List Event :=
  [.blockProcessableEv (blk 1 0 1 []), .blockProcessableEv (blk 2 1 2 []),
   .blockFinalizedEv ⟨2, 1, 2⟩, .finishExecutionEv 1 201 51 false]

/-- Upload-failure scenario: block B (id 1) executes and its single uploader
fails. -/
def traceUpload : List Event :=
  [.handleBlockEv (blk 1 0 1 []), .finishExecutionEv 1 201 51 true]

/-- Collection-idempotency scenario: block C (id 2) guarantees collection 7,
which is delivered twice. -/
def traceCol : List Event :=
  [.handleBlockEv (blk 1 0 1 []), .handleBlockEv (blk 2 1 2 [7]),
   .onCollectionEv 7, .onCollectionEv 7,
   .finishExecutionEv 1 201 51 false, .finishExecutionEv 2 202 52 false]

theorem alookup_append_of_some {k v : Nat} {l₁ : List (Nat × Nat)}
    (l₂ : List (Nat × Nat)) (h : alookup k l₁ = some v) :
    alookup k (l₁ ++ l₂) = some v := by
  induction l₁ with
  | nil => simp [alookup] at h
  | cons a rest ih =>
    obtain ⟨a1, a2⟩ := a
    by_cases hk : a1 = k
    · simp only [alookup, hk, if_pos] at h
      simpa [alookup, hk] using h
    · simp only [alookup, hk, if_neg, List.cons_append, if_false] at h ⊢
      exact ih h

theorem alookup_append_of_none {k : Nat} {l₁ : List (Nat × Nat)}
    (l₂ : List (Nat × Nat)) (h : alookup k l₁ = none) :
    alookup k (l₁ ++ l₂) = alookup k l₂ := by
  induction l₁ with
  | nil => simp
  | cons a rest ih =>
    obtain ⟨a1, a2⟩ := a
    by_cases hk : a1 = k
    · simp [alookup, hk] at h
    · simp only [alookup, hk, if_neg, List.cons_append, if_false] at h ⊢
      exact ih h

theorem alookup_isSome_append {k : Nat} {l₁ : List (Nat × Nat)}
    (l₂ : List (Nat × Nat)) (h : (alookup k l₁).isSome = true) :
    (alookup k (l₁ ++ l₂)).isSome = true := by
  obtain ⟨v, hv⟩ := Option.isSome_iff_exists.mp h
  rw [alookup_append_of_some l₂ hv]
  rfl

theorem alookup_append_ne {k b v : Nat} {l : List (Nat × Nat)}
    (h : alookup k l = none) (hne : b ≠ k) :
    alookup k (l ++ [(b, v)]) = none := by
  rw [alookup_append_of_none _ h]
  simp [alookup, hne]

theorem alookup_append_self {k v : Nat} {l : List (Nat × Nat)} :
    (alookup k (l ++ [(k, v)])).isSome = true := by
  cases hc : alookup k l with
  | none =>
    rw [alookup_append_of_none _ hc]
    simp [alookup]
  | some w =>
    rw [alookup_append_of_some _ hc]
    rfl

theorem alookup_getD_eq {k : Nat} {l : List (Nat × Nat)}
    (h : (alookup k l).isSome = true) :
    alookup k l = some ((alookup k l).getD 0) := by
  obtain ⟨v, hv⟩ := Option.isSome_iff_exists.mp h
  rw [hv]
  rfl

theorem computeLog_append (l₁ l₂ : List LogEvent) :
    computeLog (l₁ ++ l₂) = computeLog l₁ ++ computeLog l₂ :=
  List.filterMap_append ..

theorem computeIds_append (l₁ l₂ : List LogEvent) :
    computeIds (l₁ ++ l₂) = computeIds l₁ ++ computeIds l₂ := by
  simp [computeIds, computeLog_append]

theorem computeLog_map_request (l : List Nat) :
    computeLog (l.map LogEvent.request) = [] := by
  induction l with
  | nil => rfl
  | cons a r ih => simp [computeLog, List.filterMap_cons, ih]

theorem computeLog_ups (b : Nat) (f : Bool) :
    computeLog [LogEvent.upload b f, LogEvent.save b, LogEvent.onExecuted b] = [] := rfl

theorem computeLog_map_computeEv (s : EngineState) (l : List QueueEntry) :
    computeLog (l.map (computeEv s)) =
      l.map (fun e => (e.block.header, prevRid s e.block.header.parentId)) := by
  induction l with
  | nil => rfl
  | cons a r ih => simpa [computeLog, computeEv, List.filterMap_cons] using ih

theorem computeIds_map_computeEv (s : EngineState) (l : List QueueEntry) :
    computeIds (l.map (computeEv s)) = l.map qid := by
  simp [computeIds, computeLog_map_computeEv, qid]

theorem entryReady_not_executing {s : EngineState} {e : QueueEntry}
    (h : entryReady s e = true) : e.executing = false := by
  simp only [entryReady, Bool.and_eq_true, Bool.not_eq_true'] at h
  exact h.1.1.1

theorem entryReady_parent {s : EngineState} {e : QueueEntry}
    (h : entryReady s e = true) :
    (alookup (qparent e) s.commits).isSome = true := by
  simp only [entryReady, Bool.and_eq_true] at h
  exact h.1.2

theorem entryReady_should {s : EngineState} {e : QueueEntry}
    (h : entryReady s e = true) :
    shouldExecute s e.block.header.height = true := by
  simp only [entryReady, Bool.and_eq_true] at h
  exact h.2

theorem qid_fireEntry (s : EngineState) (e : QueueEntry) :
    qid (fireEntry s e) = qid e := by
  unfold fireEntry
  split <;> rfl

theorem qparent_fireEntry (s : EngineState) (e : QueueEntry) :
    qparent (fireEntry s e) = qparent e := by
  unfold fireEntry
  split <;> rfl

theorem fireEntry_of_executing {s : EngineState} {e : QueueEntry}
    (h : e.executing = true) : fireEntry s e = e := by
  unfold fireEntry
  rw [if_neg]
  intro hr
  rw [entryReady_not_executing hr] at h
  exact Bool.false_ne_true h

theorem queue_map_qid_fireEntry (s : EngineState) :
    (s.queue.map (fireEntry s)).map qid = s.queue.map qid := by
  rw [List.map_map]
  exact List.map_congr_left (fun e _ => qid_fireEntry s e)

theorem computeIds_map_request (l : List Nat) :
    computeIds (l.map LogEvent.request) = [] := by
  simp [computeIds, computeLog_map_request]

theorem computeIds_byID (x : Nat) : computeIds [LogEvent.byID x] = [] := by
  simp [computeIds, computeLog, List.filterMap_cons]

theorem computeIds_store (x : Nat) : computeIds [LogEvent.store x] = [] := by
  simp [computeIds, computeLog, List.filterMap_cons]

theorem computeIds_ups (b : Nat) (f : Bool) :
    computeIds [LogEvent.upload b f, LogEvent.save b, LogEvent.onExecuted b] = [] := by
  simp [computeIds, computeLog, List.filterMap_cons]

theorem mem_computeIds_of_append {b : Nat} {l₁ l₂ : List LogEvent}
    (h2 : computeIds l₂ = []) (h : b ∈ computeIds (l₁ ++ l₂)) :
    b ∈ computeIds l₁ := by
  rw [computeIds_append, h2, List.append_nil] at h
  exact h

theorem coreInv_transfer {s t : EngineState} (h : CoreInv s)
    (hq : t.queue = s.queue) (hc : t.commits = s.commits)
    (hl : computeIds t.log = computeIds s.log) : CoreInv t := by
  constructor
  · rw [hq]; exact h.queue_nodup
  · intro e he; rw [hq] at he; rw [hc]; exact h.queue_nocommit e he
  · intro e he hex; rw [hq] at he; rw [hc]; exact h.exec_parent e he hex
  · rw [hl]; exact h.calls_nodup
  · intro b hb
    rw [hl] at hb
    rcases h.calls_source b hb with ⟨e, he, hid, hex⟩ | hcom
    · exact Or.inl ⟨e, hq ▸ he, hid, hex⟩
    · exact Or.inr (hc ▸ hcom)

theorem coreInv_tryExecuteAll {s : EngineState} (h : CoreInv s) :
    CoreInv (tryExecuteAll s) := by
  constructor
  · show ((s.queue.map (fireEntry s)).map qid).Nodup
    rw [queue_map_qid_fireEntry]
    exact h.queue_nodup
  · intro e' he'
    obtain ⟨e, he, rfl⟩ := List.mem_map.mp he'
    show alookup (qid (fireEntry s e)) s.commits = none
    rw [qid_fireEntry]
    exact h.queue_nocommit e he
  · intro e' he' hex
    obtain ⟨e, he, rfl⟩ := List.mem_map.mp he'
    show (alookup (qparent (fireEntry s e)) s.commits).isSome = true
    rw [qparent_fireEntry]
    by_cases hr : entryReady s e = true
    · exact entryReady_parent hr
    · rw [fireEntry, if_neg hr] at hex
      exact h.exec_parent e he hex
  · show (computeIds (s.log ++ _)).Nodup
    rw [computeIds_append, computeIds_map_computeEv]
    rw [List.nodup_append]
    refine ⟨h.calls_nodup, ?_, ?_⟩
    · exact List.Nodup.sublist ((List.filter_sublist s.queue).map qid) h.queue_nodup
    · intro a ha hanew
      obtain ⟨e, hef, rfl⟩ := List.mem_map.mp hanew
      have hm := List.mem_filter.mp hef
      rcases h.calls_source _ ha with ⟨e', he', hid, hex⟩ | hcom
      · have hee : e' = e := List.inj_on_of_nodup_map h.queue_nodup he' hm.1 hid
        rw [hee, entryReady_not_executing hm.2] at hex
        exact Bool.false_ne_true hex
      · rw [h.queue_nocommit e hm.1] at hcom
        exact Bool.false_ne_true hcom
  · intro b hb
    have hb' : b ∈ computeIds s.log ++ (s.queue.filter (fun e => entryReady s e)).map qid := by
      have : computeIds (tryExecuteAll s).log
          = computeIds s.log ++ (s.queue.filter (fun e => entryReady s e)).map qid := by
        show computeIds (s.log ++ _) = _
        rw [computeIds_append, computeIds_map_computeEv]
      rw [this] at hb
      exact hb
    rcases List.mem_append.mp hb' with hbo | hbn
    · rcases h.calls_source b hbo with ⟨e, he, hid, hex⟩ | hcom
      · refine Or.inl ⟨fireEntry s e, List.mem_map_of_mem _ he, ?_, ?_⟩
        · rw [qid_fireEntry]; exact hid
        · rw [fireEntry_of_executing hex]; exact hex
      · exact Or.inr hcom
    · obtain ⟨e, hef, rfl⟩ := List.mem_map.mp hbn
      have hm := List.mem_filter.mp hef
      refine Or.inl ⟨fireEntry s e, List.mem_map_of_mem _ hm.1, qid_fireEntry s e, ?_⟩
      rw [fireEntry, if_pos hm.2]

theorem coreInv_handleBlock {s : EngineState} (h : CoreInv s) (b : Block) :
    CoreInv (handleBlock s b) := by
  unfold handleBlock
  split
  · exact h
  · split
    · exact h
    · next h1 h2 =>
      apply coreInv_tryExecuteAll
      have h2' : ∀ e ∈ s.queue, qid e ≠ b.header.id := by
        intro e he heq
        apply h2
        refine List.any_eq_true.mpr ⟨e, he, ?_⟩
        simpa [qid] using heq
      constructor
      · show ((s.queue ++ [QueueEntry.mk b false 0]).map qid).Nodup
        rw [List.map_append, List.nodup_append]
        refine ⟨h.queue_nodup, List.nodup_singleton _, ?_⟩
        intro a ha hb'
        obtain ⟨e, he, rfl⟩ := List.mem_map.mp ha
        simp only [List.map_cons, List.map_nil, List.mem_singleton] at hb'
        exact h2' e he (by simpa [qid] using hb')
      · intro e he
        rcases List.mem_append.mp he with he | he
        · exact h.queue_nocommit e he
        · simp only [List.mem_singleton] at he
          subst he
          exact Option.not_isSome_iff_eq_none.mp h1
      · intro e he hex
        rcases List.mem_append.mp he with he | he
        · exact h.exec_parent e he hex
        · simp only [List.mem_singleton] at he
          subst he
          simp at hex
      · show (computeIds (s.log ++ _)).Nodup
        rw [computeIds_append, computeIds_map_request, List.append_nil]
        exact h.calls_nodup
      · intro b' hb'
        have hb'' : b' ∈ computeIds s.log :=
          mem_computeIds_of_append (computeIds_map_request _) hb'
        rcases h.calls_source b' hb'' with ⟨e, he, hid, hex⟩ | hcom
        · exact Or.inl ⟨e, List.mem_append_left _ he, hid, hex⟩
        · exact Or.inr hcom

theorem coreInv_blockProcessable {s : EngineState} (h : CoreInv s) (b : Block) :
    CoreInv (blockProcessable s b) := by
  unfold blockProcessable
  split
  · apply coreInv_handleBlock _ b
    exact coreInv_transfer h rfl rfl
      (by rw [show ({ s with log := s.log ++ [LogEvent.byID b.header.id] } : EngineState).log
            = s.log ++ [LogEvent.byID b.header.id] from rfl, computeIds_append,
            computeIds_byID, List.append_nil])
  · exact h

theorem coreInv_onCollection {s : EngineState} (h : CoreInv s) (c : Nat) :
    CoreInv (onCollection s c) := by
  unfold onCollection
  split
  · exact h
  · apply coreInv_tryExecuteAll
    exact coreInv_transfer h rfl rfl (by rw [show ({ s with
        storedCols := s.storedCols ++ [c],
        requestedCols := s.requestedCols.filter (fun x => x != c),
        log := s.log ++ [LogEvent.store c] } : EngineState).log
          = s.log ++ [LogEvent.store c] from rfl, computeIds_append,
        computeIds_store, List.append_nil])

theorem coreInv_finishExecution {s : EngineState} (h : CoreInv s)
    (b c rid : Nat) (f : Bool) : CoreInv (finishExecution s b c rid f) := by
  unfold finishExecution
  cases hf : s.queue.find? (fun e => e.block.header.id == b && e.executing) with
  | none => exact h
  | some e =>
    apply coreInv_tryExecuteAll
    constructor
    · exact List.Nodup.sublist ((List.filter_sublist s.queue).map qid) h.queue_nodup
    · intro e2 he2
      have hm := List.mem_filter.mp he2
      have hne : qid e2 ≠ b := by simpa [qid] using hm.2
      exact alookup_append_ne (h.queue_nocommit e2 hm.1) (Ne.symm hne)
    · intro e2 he2 hex2
      have hm := List.mem_filter.mp he2
      exact alookup_isSome_append _ (h.exec_parent e2 hm.1 hex2)
    · show (computeIds (s.log ++ _)).Nodup
      rw [computeIds_append, computeIds_ups, List.append_nil]
      exact h.calls_nodup
    · intro b' hb'
      have hb'' : b' ∈ computeIds s.log := by
        have heq : computeIds (s.log ++ [LogEvent.upload b f, LogEvent.save b,
            LogEvent.onExecuted b]) = computeIds s.log := by
          rw [computeIds_append, computeIds_ups, List.append_nil]
        rw [heq] at hb'
        exact hb'
      rcases h.calls_source b' hb'' with ⟨e', he', hid', hex'⟩ | hcom
      · by_cases hbe : qid e' = b
        · have hbb : b' = b := by rw [← hid', hbe]
          subst hbb
          exact Or.inr alookup_append_self
        · refine Or.inl ⟨e', List.mem_filter.mpr ⟨he', ?_⟩, hid', hex'⟩
          simpa [qid] using hbe
      · exact Or.inr (alookup_isSome_append _ hcom)

theorem coreInv_blockFinalized {s : EngineState} (h : CoreInv s) (hd : BlockHeader) :
    CoreInv (blockFinalized s hd) := by
  unfold blockFinalized
  repeat' split
  all_goals first
    | exact h
    | exact coreInv_transfer h rfl rfl rfl

theorem coreInv_step {s : EngineState} (h : CoreInv s) (ev : Event) :
    CoreInv (step s ev) := by
  cases ev with
  | blockProcessableEv b => exact coreInv_blockProcessable h b
  | handleBlockEv b => exact coreInv_handleBlock h b
  | onCollectionEv c => exact coreInv_onCollection h c
  | finishExecutionEv b c rid f => exact coreInv_finishExecution h b c rid f
  | blockFinalizedEv hd => exact coreInv_blockFinalized h hd

theorem coreInv_run {s : EngineState} (h : CoreInv s) (evs : List Event) :
    CoreInv (run s evs) := by
  induction evs generalizing s with
  | nil => exact h
  | cons ev rest ih => exact ih (coreInv_step h ev)

theorem coreInv_init (sc sr : List (Nat × Nat)) (st : Option Nat) :
    CoreInv (initState sc sr st) := by
  constructor
  · exact List.nodup_nil
  · intro e he; simp [initState] at he
  · intro e he; simp [initState] at he
  · exact List.nodup_nil
  · intro b hb; simp [initState, computeIds, computeLog] at hb

theorem compute_notin_requests (hd : BlockHeader) (p : Nat) (l : List Nat) :
    LogEvent.compute hd p ∉ l.map LogEvent.request := by
  simp

theorem chainInv_ext {s t : EngineState} (h : ChainInv s)
    (hq : t.queue = s.queue) (hc : t.commits = s.commits)
    (hr : t.resultIds = s.resultIds) (hs : t.saved = s.saved)
    (hl : ∀ hd p, LogEvent.compute hd p ∈ t.log → LogEvent.compute hd p ∈ s.log) :
    ChainInv t := by
  constructor
  · intro p hp; rw [hc] at hp; rw [hr]; exact h.cr p hp
  · intro hd p hm; rw [hr]; exact h.calls_prev hd p (hl hd p hm)
  · intro e he hex; rw [hq] at he; rw [hr]; exact h.exec_prev e he hex
  · intro r hrm; rw [hs] at hrm; rw [hr]; exact h.saved_chain r hrm

theorem chainInv_tryExecuteAll {s : EngineState} (h : ChainInv s) :
    ChainInv (tryExecuteAll s) := by
  constructor
  · exact h.cr
  · intro hd prev hmem
    have hmem' : LogEvent.compute hd prev ∈
        s.log ++ (s.queue.filter (fun e => entryReady s e)).map (computeEv s) := hmem
    rcases List.mem_append.mp hmem' with hmem | hmem
    · exact h.calls_prev hd prev hmem
    · obtain ⟨e, hef, heq⟩ := List.mem_map.mp hmem
      have hm := List.mem_filter.mp hef
      rw [computeEv] at heq
      injection heq with h1 h2
      subst h1
      subst h2
      have hres := h.cr _ (entryReady_parent hm.2)
      exact alookup_getD_eq hres
  · intro e' he' hex
    obtain ⟨e, he, rfl⟩ := List.mem_map.mp he'
    by_cases hrdy : entryReady s e = true
    · have hfe : fireEntry s e =
          { e with executing := true, prevUsed := prevRid s e.block.header.parentId } := by
        unfold fireEntry
        rw [if_pos hrdy]
      rw [hfe]
      have hres := h.cr _ (entryReady_parent hrdy)
      exact alookup_getD_eq hres
    · have hfe : fireEntry s e = e := by
        unfold fireEntry
        rw [if_neg hrdy]
      rw [hfe] at hex ⊢
      exact h.exec_prev e he hex
  · exact h.saved_chain

theorem chainInv_handleBlock {s : EngineState} (h : ChainInv s) (b : Block) :
    ChainInv (handleBlock s b) := by
  unfold handleBlock
  split
  · exact h
  · split
    · exact h
    · apply chainInv_tryExecuteAll
      constructor
      · exact h.cr
      · intro hd p hm
        rcases List.mem_append.mp hm with hm | hm
        · exact h.calls_prev hd p hm
        · exact absurd hm (compute_notin_requests hd p _)
      · intro e he hex
        rcases List.mem_append.mp he with he | he
        · exact h.exec_prev e he hex
        · simp only [List.mem_singleton] at he
          subst he
          simp at hex
      · exact h.saved_chain

theorem chainInv_blockProcessable {s : EngineState} (h : ChainInv s) (b : Block) :
    ChainInv (blockProcessable s b) := by
  unfold blockProcessable
  split
  · apply chainInv_handleBlock _ b
    refine chainInv_ext h rfl rfl rfl rfl ?_
    intro hd p hm
    rcases List.mem_append.mp hm with hm | hm
    · exact hm
    · simp at hm
  · exact h

theorem chainInv_onCollection {s : EngineState} (h : ChainInv s) (c : Nat) :
    ChainInv (onCollection s c) := by
  unfold onCollection
  split
  · exact h
  · apply chainInv_tryExecuteAll
    refine chainInv_ext h rfl rfl rfl rfl ?_
    intro hd p hm
    rcases List.mem_append.mp hm with hm | hm
    · exact hm
    · simp at hm

theorem chainInv_finishExecution {s : EngineState} (h : ChainInv s)
    (b c rid : Nat) (f : Bool) : ChainInv (finishExecution s b c rid f) := by
  unfold finishExecution
  cases hf : s.queue.find? (fun e => e.block.header.id == b && e.executing) with
  | none => exact h
  | some e =>
    have hmem : e ∈ s.queue := List.mem_of_find?_eq_some hf
    have hpred := List.find?_some hf
    rw [Bool.and_eq_true] at hpred
    have hex : e.executing = true := hpred.2
    apply chainInv_tryExecuteAll
    constructor
    · intro p hp
      have hp2 : (alookup p (s.commits ++ [(b, c)])).isSome = true := hp
      show (alookup p (s.resultIds ++ [(b, rid)])).isSome = true
      cases hcp : alookup p s.commits with
      | some w =>
        exact alookup_isSome_append _ (h.cr p (by rw [hcp]; rfl))
      | none =>
        rw [alookup_append_of_none _ hcp] at hp2
        have hpb : b = p := by
          by_cases hbp : b = p
          · exact hbp
          · rw [show alookup p [(b, c)] = none by simp [alookup, hbp]] at hp2
            exact absurd hp2 (by simp)
        subst hpb
        exact alookup_append_self
    · intro hd p hm
      have hm2 : LogEvent.compute hd p ∈ s.log ++ [LogEvent.upload b f,
          LogEvent.save b, LogEvent.onExecuted b] := hm
      show alookup hd.parentId (s.resultIds ++ [(b, rid)]) = some p
      rcases List.mem_append.mp hm2 with hm3 | hm3
      · exact alookup_append_of_some _ (h.calls_prev hd p hm3)
      · simp at hm3
    · intro e2 he2 hex2
      have he3 : e2 ∈ s.queue.filter (fun e2 => e2.block.header.id != b) := he2
      show alookup (qparent e2) (s.resultIds ++ [(b, rid)]) = some e2.prevUsed
      have hm2 := List.mem_filter.mp he3
      exact alookup_append_of_some _ (h.exec_prev e2 hm2.1 hex2)
    · intro r hrm
      have hrm2 : r ∈ s.saved ++
          [(⟨b, e.block.header.parentId, e.prevUsed, rid, c⟩ : SavedResult)] := hrm
      show alookup r.parentId (s.resultIds ++ [(b, rid)]) = some r.previousResultId
      rcases List.mem_append.mp hrm2 with hrm3 | hrm3
      · exact alookup_append_of_some _ (h.saved_chain r hrm3)
      · simp only [List.mem_singleton] at hrm3
        subst hrm3
        exact alookup_append_of_some _ (h.exec_prev e hmem hex)

theorem chainInv_blockFinalized {s : EngineState} (h : ChainInv s) (hd : BlockHeader) :
    ChainInv (blockFinalized s hd) := by
  unfold blockFinalized
  repeat' split
  all_goals first
    | exact h
    | exact chainInv_ext h rfl rfl rfl rfl (fun _ _ hm => hm)

theorem chainInv_step {s : EngineState} (h : ChainInv s) (ev : Event) :
    ChainInv (step s ev) := by
  cases ev with
  | blockProcessableEv b => exact chainInv_blockProcessable h b
  | handleBlockEv b => exact chainInv_handleBlock h b
  | onCollectionEv c => exact chainInv_onCollection h c
  | finishExecutionEv b c rid f => exact chainInv_finishExecution h b c rid f
  | blockFinalizedEv hd => exact chainInv_blockFinalized h hd

theorem chainInv_run {s : EngineState} (h : ChainInv s) (evs : List Event) :
    ChainInv (run s evs) := by
  induction evs generalizing s with
  | nil => exact h
  | cons ev rest ih => exact ih (chainInv_step h ev)

theorem chainInv_init (sc sr : List (Nat × Nat)) (st : Option Nat)
    (hsc : ∀ p, (alookup p sc).isSome = true → (alookup p sr).isSome = true) :
    ChainInv (initState sc sr st) := by
  constructor
  · exact hsc
  · intro hd p hm; simp [initState] at hm
  · intro e he; simp [initState] at he
  · intro r hrm; simp [initState] at hrm

theorem savesAcc_append (seen : List Nat) (l₁ l₂ : List LogEvent) :
    savesAcc seen (l₁ ++ l₂) = savesAcc (savesAcc seen l₁) l₂ := by
  induction l₁ generalizing seen with
  | nil => rfl
  | cons ev rest ih => cases ev <;> simp [savesAcc, ih]

theorem mem_savesAcc_mono {a : Nat} {seen : List Nat} (l : List LogEvent)
    (h : a ∈ seen) : a ∈ savesAcc seen l := by
  induction l generalizing seen with
  | nil => exact h
  | cons ev rest ih =>
    cases ev <;> simp only [savesAcc] <;>
      first
        | exact ih h
        | exact ih (List.mem_cons_of_mem _ h)

theorem mem_savesAcc_of_save {a : Nat} {l : List LogEvent} (seen : List Nat)
    (h : LogEvent.save a ∈ l) : a ∈ savesAcc seen l := by
  induction l generalizing seen with
  | nil => simp at h
  | cons ev rest ih =>
    rcases List.mem_cons.mp h with heq | hrest
    · subst heq
      simp only [savesAcc]
      exact mem_savesAcc_mono _ (List.mem_cons_self a seen)
    · clear h
      cases ev <;> simp only [savesAcc] <;> exact ih _ hrest

theorem chainOK_append (sc : List (Nat × Nat)) (seen : List Nat)
    (l₁ l₂ : List LogEvent) :
    chainOK sc seen (l₁ ++ l₂)
      = (chainOK sc seen l₁ && chainOK sc (savesAcc seen l₁) l₂) := by
  induction l₁ generalizing seen with
  | nil => simp [chainOK, savesAcc]
  | cons ev rest ih => cases ev <;> simp [chainOK, savesAcc, ih, Bool.and_assoc]

theorem chainOK_requests (sc : List (Nat × Nat)) (seen : List Nat) (l : List Nat) :
    chainOK sc seen (l.map LogEvent.request) = true := by
  induction l with
  | nil => rfl
  | cons a rest ih => simpa [chainOK] using ih

theorem chainOK_map_computeEv (sc : List (Nat × Nat)) (s : EngineState)
    (seen : List Nat) (l : List QueueEntry)
    (hl : ∀ e ∈ l, (alookup (qparent e) sc).isSome = true ∨ qparent e ∈ seen) :
    chainOK sc seen (l.map (computeEv s)) = true := by
  induction l with
  | nil => rfl
  | cons a rest ih =>
    simp only [List.map_cons, computeEv, chainOK]
    rw [Bool.and_eq_true]
    constructor
    · rw [Bool.or_eq_true]
      rcases hl a (List.mem_cons_self a rest) with hsc | hseen
      · exact Or.inl hsc
      · refine Or.inr ?_
        simpa [qparent] using hseen
    · exact ih (fun e he => hl e (List.mem_cons_of_mem _ he))

theorem orderInv_ext {sc : List (Nat × Nat)} {s t : EngineState}
    (ext : List LogEvent) (h : OrderInv sc s)
    (hc : t.commits = s.commits) (hl : t.log = s.log ++ ext)
    (hext : chainOK sc (savesAcc [] s.log) ext = true) : OrderInv sc t := by
  constructor
  · rw [hl, chainOK_append, h.ok, hext]
    rfl
  · intro p hp
    rw [hc] at hp
    rcases h.committed p hp with hsc | hsv
    · exact Or.inl hsc
    · refine Or.inr ?_
      rw [hl, savesAcc_append]
      exact mem_savesAcc_mono _ hsv

theorem orderInv_tryExecuteAll {sc : List (Nat × Nat)} {s : EngineState}
    (h : OrderInv sc s) : OrderInv sc (tryExecuteAll s) := by
  refine orderInv_ext ((s.queue.filter (fun e => entryReady s e)).map (computeEv s))
    h rfl rfl ?_
  apply chainOK_map_computeEv
  intro e he
  have hm := List.mem_filter.mp he
  have hpar := entryReady_parent hm.2
  rcases h.committed _ hpar with hsc | hsv
  · exact Or.inl hsc
  · exact Or.inr hsv

theorem orderInv_handleBlock {sc : List (Nat × Nat)} {s : EngineState}
    (h : OrderInv sc s) (b : Block) : OrderInv sc (handleBlock s b) := by
  unfold handleBlock
  split
  · exact h
  · split
    · exact h
    · apply orderInv_tryExecuteAll
      exact orderInv_ext
        (((b.guarantees.filter (fun c => !(s.storedCols.contains c))).filter
          (fun c => !(s.requestedCols.contains c))).map LogEvent.request)
        h rfl rfl (chainOK_requests sc _ _)

theorem orderInv_blockProcessable {sc : List (Nat × Nat)} {s : EngineState}
    (h : OrderInv sc s) (b : Block) : OrderInv sc (blockProcessable s b) := by
  unfold blockProcessable
  split
  · apply orderInv_handleBlock _ b
    exact orderInv_ext [LogEvent.byID b.header.id] h rfl rfl rfl
  · exact h

theorem orderInv_onCollection {sc : List (Nat × Nat)} {s : EngineState}
    (h : OrderInv sc s) (c : Nat) : OrderInv sc (onCollection s c) := by
  unfold onCollection
  split
  · exact h
  · apply orderInv_tryExecuteAll
    exact orderInv_ext [LogEvent.store c] h rfl rfl rfl

theorem orderInv_finishExecution {sc : List (Nat × Nat)} {s : EngineState}
    (h : OrderInv sc s) (b c rid : Nat) (f : Bool) :
    OrderInv sc (finishExecution s b c rid f) := by
  unfold finishExecution
  cases hf : s.queue.find? (fun e => e.block.header.id == b && e.executing) with
  | none => exact h
  | some e =>
    apply orderInv_tryExecuteAll
    constructor
    · show chainOK sc [] (s.log ++ [LogEvent.upload b f, LogEvent.save b,
        LogEvent.onExecuted b]) = true
      rw [chainOK_append, h.ok]
      rfl
    · intro p hp
      have hp2 : (alookup p (s.commits ++ [(b, c)])).isSome = true := hp
      have hsave : LogEvent.save b ∈ s.log ++ [LogEvent.upload b f, LogEvent.save b,
          LogEvent.onExecuted b] := by
        refine List.mem_append_right _ ?_
        simp
      cases hcp : alookup p s.commits with
      | some w =>
        rcases h.committed p (by rw [hcp]; rfl) with hsc | hsv
        · exact Or.inl hsc
        · refine Or.inr ?_
          show p ∈ savesAcc [] (s.log ++ [LogEvent.upload b f, LogEvent.save b,
            LogEvent.onExecuted b])
          rw [savesAcc_append]
          exact mem_savesAcc_mono _ hsv
      | none =>
        rw [alookup_append_of_none _ hcp] at hp2
        have hpb : b = p := by
          by_cases hbp : b = p
          · exact hbp
          · rw [show alookup p [(b, c)] = none by simp [alookup, hbp]] at hp2
            exact absurd hp2 (by simp)
        subst hpb
        refine Or.inr ?_
        show b ∈ savesAcc [] (s.log ++ [LogEvent.upload b f, LogEvent.save b,
          LogEvent.onExecuted b])
        exact mem_savesAcc_of_save _ hsave

theorem orderInv_blockFinalized {sc : List (Nat × Nat)} {s : EngineState}
    (h : OrderInv sc s) (hd : BlockHeader) : OrderInv sc (blockFinalized s hd) := by
  unfold blockFinalized
  repeat' split
  all_goals exact ⟨h.ok, h.committed⟩

theorem orderInv_step {sc : List (Nat × Nat)} {s : EngineState}
    (h : OrderInv sc s) (ev : Event) : OrderInv sc (step s ev) := by
  cases ev with
  | blockProcessableEv b => exact orderInv_blockProcessable h b
  | handleBlockEv b => exact orderInv_handleBlock h b
  | onCollectionEv c => exact orderInv_onCollection h c
  | finishExecutionEv b c rid f => exact orderInv_finishExecution h b c rid f
  | blockFinalizedEv hd => exact orderInv_blockFinalized h hd

theorem orderInv_run {sc : List (Nat × Nat)} {s : EngineState}
    (h : OrderInv sc s) (evs : List Event) : OrderInv sc (run s evs) := by
  induction evs generalizing s with
  | nil => exact h
  | cons ev rest ih => exact ih (orderInv_step h ev)

theorem orderInv_init (sc sr : List (Nat × Nat)) (st : Option Nat) :
    OrderInv sc (initState sc sr st) := by
  constructor
  · rfl
  · intro p hp
    exact Or.inl hp

theorem stopInv_ext {stopH : Nat} {s t : EngineState} (ext : List LogEvent)
    (h : StopInv stopH s) (hstop : t.stop = some stopH)
    (hl : t.log = s.log ++ ext)
    (hext : ∀ hd p, LogEvent.compute hd p ∈ ext → hd.height < stopH) :
    StopInv stopH t := by
  constructor
  · exact hstop
  · intro hd p hm
    rw [hl] at hm
    rcases List.mem_append.mp hm with hm | hm
    · exact h.calls_below hd p hm
    · exact hext hd p hm

theorem stopInv_tryExecuteAll {stopH : Nat} {s : EngineState}
    (h : StopInv stopH s) : StopInv stopH (tryExecuteAll s) := by
  refine stopInv_ext ((s.queue.filter (fun e => entryReady s e)).map (computeEv s))
    h h.stop_eq rfl ?_
  intro hd p hm
  obtain ⟨e, hef, heq⟩ := List.mem_map.mp hm
  have hmf := List.mem_filter.mp hef
  rw [computeEv] at heq
  injection heq with h1 h2
  subst h1
  have hsh := entryReady_should hmf.2
  simp only [shouldExecute, h.stop_eq, Bool.and_eq_true] at hsh
  exact of_decide_eq_true hsh.2

theorem stopInv_handleBlock {stopH : Nat} {s : EngineState}
    (h : StopInv stopH s) (b : Block) : StopInv stopH (handleBlock s b) := by
  unfold handleBlock
  split
  · exact h
  · split
    · exact h
    · apply stopInv_tryExecuteAll
      refine stopInv_ext
        (((b.guarantees.filter (fun c => !(s.storedCols.contains c))).filter
          (fun c => !(s.requestedCols.contains c))).map LogEvent.request)
        h h.stop_eq rfl ?_
      intro hd p hm
      exact absurd hm (compute_notin_requests hd p _)

theorem stopInv_blockProcessable {stopH : Nat} {s : EngineState}
    (h : StopInv stopH s) (b : Block) : StopInv stopH (blockProcessable s b) := by
  unfold blockProcessable
  split
  · apply stopInv_handleBlock _ b
    refine stopInv_ext [LogEvent.byID b.header.id] h h.stop_eq rfl ?_
    intro hd p hm
    simp at hm
  · exact h

theorem stopInv_onCollection {stopH : Nat} {s : EngineState}
    (h : StopInv stopH s) (c : Nat) : StopInv stopH (onCollection s c) := by
  unfold onCollection
  split
  · exact h
  · apply stopInv_tryExecuteAll
    refine stopInv_ext [LogEvent.store c] h h.stop_eq rfl ?_
    intro hd p hm
    simp at hm

theorem stopInv_finishExecution {stopH : Nat} {s : EngineState}
    (h : StopInv stopH s) (b c rid : Nat) (f : Bool) :
    StopInv stopH (finishExecution s b c rid f) := by
  unfold finishExecution
  cases hf : s.queue.find? (fun e => e.block.header.id == b && e.executing) with
  | none => exact h
  | some e =>
    apply stopInv_tryExecuteAll
    refine stopInv_ext [LogEvent.upload b f, LogEvent.save b, LogEvent.onExecuted b]
      h h.stop_eq rfl ?_
    intro hd p hm
    simp at hm

theorem stopInv_blockFinalized {stopH : Nat} {s : EngineState}
    (h : StopInv stopH s) (hd : BlockHeader) : StopInv stopH (blockFinalized s hd) := by
  unfold blockFinalized
  repeat' split
  all_goals exact ⟨h.stop_eq, h.calls_below⟩

theorem stopInv_step {stopH : Nat} {s : EngineState}
    (h : StopInv stopH s) (ev : Event) : StopInv stopH (step s ev) := by
  cases ev with
  | blockProcessableEv b => exact stopInv_blockProcessable h b
  | handleBlockEv b => exact stopInv_handleBlock h b
  | onCollectionEv c => exact stopInv_onCollection h c
  | finishExecutionEv b c rid f => exact stopInv_finishExecution h b c rid f
  | blockFinalizedEv hd => exact stopInv_blockFinalized h hd

theorem stopInv_run {stopH : Nat} {s : EngineState}
    (h : StopInv stopH s) (evs : List Event) : StopInv stopH (run s evs) := by
  induction evs generalizing s with
  | nil => exact h
  | cons ev rest ih => exact ih (stopInv_step h ev)

theorem stopInv_init (sc sr : List (Nat × Nat)) (stopH : Nat) :
    StopInv stopH (initState sc sr (some stopH)) := by
  constructor
  · rfl
  · intro hd p hm
    simp [initState] at hm

theorem exec_no_queued_parent {s : EngineState} (h : CoreInv s)
    {eB eD : QueueEntry} (hB : eB ∈ s.queue) (hD : eD ∈ s.queue)
    (hex : eD.executing = true) : qid eB ≠ qparent eD := by
  intro heq
  have hpar := h.exec_parent eD hD hex
  rw [← heq] at hpar
  rw [h.queue_nocommit eB hB] at hpar
  exact Bool.false_ne_true hpar

theorem exec_no_queueDesc {s : EngineState} (h : CoreInv s)
    {eB eD : QueueEntry} (hdesc : QueueDesc s eB eD) (hex : eD.executing = true) :
    False := by
  induction hdesc with
  | parent eB eD hB hD hp => exact exec_no_queued_parent h hB hD hex hp.symm
  | trans eB eM eD h1 h2 ih1 ih2 => exact ih2 hex

theorem entryReady_congr {s t : EngineState}
    (hc : s.commits = t.commits) (hsc : s.storedCols = t.storedCols)
    (hst : s.stopped = t.stopped) (hsp : s.stop = t.stop) (e : QueueEntry) :
    entryReady s e = entryReady t e := by
  unfold entryReady shouldExecute
  rw [hc, hsc, hst, hsp]

theorem prevRid_congr {s t : EngineState} (hr : s.resultIds = t.resultIds)
    (p : Nat) : prevRid s p = prevRid t p := by
  unfold prevRid
  rw [hr]

theorem fireEntry_congr {s t : EngineState}
    (hc : s.commits = t.commits) (hsc : s.storedCols = t.storedCols)
    (hst : s.stopped = t.stopped) (hsp : s.stop = t.stop)
    (hr : s.resultIds = t.resultIds) (e : QueueEntry) :
    fireEntry s e = fireEntry t e := by
  unfold fireEntry
  rw [entryReady_congr hc hsc hst hsp, prevRid_congr hr]

theorem finishExecution_upload_immaterial (s : EngineState) (b c rid : Nat) :
    eraseLog (finishExecution s b c rid true)
      = eraseLog (finishExecution s b c rid false) := by
  unfold finishExecution
  cases hf : s.queue.find? (fun e => e.block.header.id == b && e.executing) with
  | none => rfl
  | some e =>
    unfold eraseLog tryExecuteAll
    simp only [EngineState.mk.injEq, and_true, true_and, eq_self_iff_true]
    apply List.map_congr_left
    intro e2 _
    exact fireEntry_congr rfl rfl rfl rfl rfl e2

theorem onCollection_of_contains {s : EngineState} {c : Nat}
    (h : s.storedCols.contains c = true) : onCollection s c = s := by
  unfold onCollection
  rw [if_pos h]

theorem mem_storedCols_onCollection (s : EngineState) (c : Nat) :
    c ∈ (onCollection s c).storedCols := by
  unfold onCollection
  split
  · next hcon => simpa using hcon
  · show c ∈ s.storedCols ++ [c]
    simp

theorem onCollection_idem (s : EngineState) (c : Nat) :
    onCollection (onCollection s c) c = onCollection s c :=
  onCollection_of_contains (by simpa using mem_storedCols_onCollection s c)

theorem onCollection_iter (s : EngineState) (c : Nat) (n : Nat) :
    (fun t => onCollection t c)^[n + 1] s = onCollection s c := by
  induction n with
  | zero => rfl
  | succ m ih =>
    rw [Function.iterate_succ_apply', ih]
    exact onCollection_idem s c

theorem finishExecution_structure (s : EngineState) (b c rid : Nat) (f : Bool)
    (e : QueueEntry)
    (hf : s.queue.find? (fun e => e.block.header.id == b && e.executing) = some e) :
    (∃ cs, (finishExecution s b c rid f).log
      = s.log ++ [LogEvent.upload b f, LogEvent.save b, LogEvent.onExecuted b] ++ cs) ∧
    (finishExecution s b c rid f).commits = s.commits ++ [(b, c)] ∧
    (∀ e2 ∈ (finishExecution s b c rid f).queue, qid e2 ≠ b) := by
  unfold finishExecution
  rw [hf]
  refine ⟨⟨_, rfl⟩, rfl, ?_⟩
  intro e2 he2
  obtain ⟨e3, he3, rfl⟩ := List.mem_map.mp he2
  have hm := List.mem_filter.mp he3
  rw [qid_fireEntry]
  simpa [qid] using hm.2

theorem blockProcessable_stop_noop (s : EngineState) (b : Block) (stopH : Nat)
    (hstop : s.stop = some stopH) (hh : stopH ≤ b.header.height) :
    blockProcessable s b = s := by
  have hse : shouldExecute s b.header.height = false := by
    unfold shouldExecute
    rw [hstop]
    simp [Nat.not_lt.mpr hh]
  unfold blockProcessable
  rw [hse]
  simp


/-- C1: for every block id ever enqueued, no matter how many times the same
block is handed to `handleBlock`, `ComputeBlock` is invoked at most once for
that id (the submission log has no duplicate ids, over every initial store
and every event interleaving); and in the reload-flood scenario S3 (block B
handled four times, then its child C once) `ComputeBlock` runs exactly once
for B and once for C, in that order, and both state commitments are
persisted. -/
theorem C1_exactly_once_execution :
    (∀ (sc sr : List (Nat × Nat)) (st : Option Nat) (evs : List Event),
      (computeIds (run (initState sc sr st) evs).log).Nodup) ∧
    computeIds (run (initState seedC seedR none) traceS3).log = [1, 2] ∧
    alookup 1 (run (initState seedC seedR none) traceS3).commits = some 201 ∧
    alookup 2 (run (initState seedC seedR none) traceS3).commits = some 202 := by
  refine ⟨?_, by decide, by decide, by decide⟩
  intro sc sr st evs
  exact (coreInv_run (coreInv_init sc sr st) evs).calls_nodup

/-- C2: every `ComputeBlock` call for a child C carries as `previousResultId`
exactly the execution-result id persisted for C's parent (the value
`GetExecutionResultID` returns on the parent's id), every persisted result
chains its `PreviousResultID` to the parent's result id, and in the fan-out
scenario the sibling blocks 2 and 3 of parent 1 both receive parent 1's
result id 51. -/
theorem C2_parent_child_result_chaining :
    (∀ (sc sr : List (Nat × Nat)) (st : Option Nat) (evs : List Event),
      (∀ p, (alookup p sc).isSome = true → (alookup p sr).isSome = true) →
      (∀ hd prev, LogEvent.compute hd prev ∈ (run (initState sc sr st) evs).log →
        alookup hd.parentId (run (initState sc sr st) evs).resultIds = some prev) ∧
      (∀ r ∈ (run (initState sc sr st) evs).saved,
        alookup r.parentId (run (initState sc sr st) evs).resultIds
          = some r.previousResultId)) ∧
    computeLog (run (initState seedC seedR none) traceS2a).log
      = [(⟨1, 0, 1⟩, 50), (⟨2, 1, 2⟩, 51), (⟨3, 1, 2⟩, 51), (⟨4, 3, 3⟩, 53)] := by
  refine ⟨?_, by decide⟩
  intro sc sr st evs halign
  have h := chainInv_run (chainInv_init sc sr st halign) evs
  exact ⟨h.calls_prev, h.saved_chain⟩

theorem C2_parent_child_result_chaining_witness :
    (∀ p, (alookup p seedC).isSome = true → (alookup p seedR).isSome = true) ∧
    LogEvent.compute ⟨2, 1, 2⟩ 51 ∈ (run (initState seedC seedR none) traceS2a).log ∧
    alookup 1 (run (initState seedC seedR none) traceS2a).resultIds = some 51 := by
  have halign : ∀ p, (alookup p seedC).isSome = true → (alookup p seedR).isSome = true := by
    intro p hp
    by_cases h0 : (0 : Nat) = p
    · subst h0
      decide
    · exfalso
      rw [show alookup p seedC = none by simp [seedC, alookup, h0]] at hp
      simp at hp
  refine ⟨halign, by decide, ?_⟩
  exact (C2_parent_child_result_chaining.1 seedC seedR none traceS2a halign).1
    ⟨2, 1, 2⟩ 51 (by decide)

/-- C3: in every reachable state, if a queue entry D is executing then no
entry in the queue is D's parent, and no chain of queued entries links any
entry B down to D — so no descendant of a block B that is still enqueued
(in particular, still executing) can itself be executing: a descendant is
submitted only after `OnExecuted` removed B. -/
theorem C3_head_of_queue :
    ∀ (sc sr : List (Nat × Nat)) (st : Option Nat) (evs : List Event)
      (eD : QueueEntry), eD ∈ (run (initState sc sr st) evs).queue →
      eD.executing = true →
      (∀ eB ∈ (run (initState sc sr st) evs).queue, qid eB ≠ qparent eD) ∧
      (∀ eB : QueueEntry, ¬ QueueDesc (run (initState sc sr st) evs) eB eD) := by
  intro sc sr st evs eD hD hex
  have h := coreInv_run (coreInv_init sc sr st) evs
  exact ⟨fun eB hB => exec_no_queued_parent h hB hD hex,
         fun eB hdesc => exec_no_queueDesc h hdesc hex⟩

theorem C3_head_of_queue_witness :
    (⟨blk 2 1 2 [], true, 51⟩ : QueueEntry)
        ∈ (run (initState seedC seedR none) (traceS2a.take 5)).queue ∧
    (⟨blk 2 1 2 [], true, 51⟩ : QueueEntry).executing = true ∧
    ((∀ eB ∈ (run (initState seedC seedR none) (traceS2a.take 5)).queue,
        qid eB ≠ qparent (⟨blk 2 1 2 [], true, 51⟩ : QueueEntry)) ∧
     (∀ eB : QueueEntry, ¬ QueueDesc (run (initState seedC seedR none) (traceS2a.take 5))
        eB (⟨blk 2 1 2 [], true, 51⟩ : QueueEntry))) :=
  ⟨by decide, rfl,
    C3_head_of_queue seedC seedR none (traceS2a.take 5) _ (by decide) rfl⟩

/-- C4: stop scenario S5 with `stopBeforeHeight = 3`: blocks 1..4 at heights
1..4 are announced and 1, 2, 3 finalized; `ComputeBlock` runs for blocks 1
and 2 only, the block bodies fetched are exactly those of blocks 1 and 2,
`IsExecutionStopped` stays false through the executions and the
finalizations of heights 1 and 2, flips to true when height 3 is finalized,
and block 3 (and 4) have no persisted state commitment. -/
theorem C4_stop_at_height_scenario :
    computeIds (run (initState seedC seedR (some 3)) traceS5).log = [1, 2] ∧
    byIDLog (run (initState seedC seedR (some 3)) traceS5).log = [1, 2] ∧
    (run (initState seedC seedR (some 3)) (traceS5.take 6)).stopped = false ∧
    (run (initState seedC seedR (some 3)) (traceS5.take 8)).stopped = false ∧
    (run (initState seedC seedR (some 3)) (traceS5.take 9)).stopped = true ∧
    alookup 3 (run (initState seedC seedR (some 3)) traceS5).commits = none ∧
    alookup 4 (run (initState seedC seedR (some 3)) traceS5).commits = none ∧
    alookup 1 (run (initState seedC seedR (some 3)) traceS5).commits = some 201 ∧
    alookup 2 (run (initState seedC seedR (some 3)) traceS5).commits = some 202 := by
  decide

/-- C5: with `stopBeforeHeight = H` configured, `ComputeBlock` is never
invoked for any block of height ≥ H in any interleaving whatsoever (so in
particular not after a block of height ≥ H is finalized); and in both
interleavings of the finalization race — the boundary block 1 finishing
before or after the finalization of block 2 at the stop height is handled —
block 1's commitment is persisted, only block 1 was ever computed, and
`IsExecutionStopped` ends up true. -/
theorem C5_stop_fidelity :
    (∀ (sc sr : List (Nat × Nat)) (stopH : Nat) (evs : List Event)
      (hd : BlockHeader) (prev : Nat),
      LogEvent.compute hd prev ∈ (run (initState sc sr (some stopH)) evs).log →
      hd.height < stopH) ∧
    ((run (initState seedC seedR (some 2)) traceRace1).stopped = true ∧
     alookup 1 (run (initState seedC seedR (some 2)) traceRace1).commits = some 201 ∧
     computeIds (run (initState seedC seedR (some 2)) traceRace1).log = [1] ∧
     (run (initState seedC seedR (some 2)) traceRace2).stopped = true ∧
     alookup 1 (run (initState seedC seedR (some 2)) traceRace2).commits = some 201 ∧
     computeIds (run (initState seedC seedR (some 2)) traceRace2).log = [1]) := by
  refine ⟨?_, by decide⟩
  intro sc sr stopH evs hd prev hm
  exact (stopInv_run (stopInv_init sc sr stopH) evs).calls_below hd prev hm

theorem C5_stop_fidelity_witness :
    LogEvent.compute ⟨1, 0, 1⟩ 50
        ∈ (run (initState seedC seedR (some 2)) traceRace1).log ∧
    (1 : Nat) < 2 :=
  ⟨by decide, C5_stop_fidelity.1 seedC seedR 2 traceRace1 ⟨1, 0, 1⟩ 50 (by decide)⟩

/-- C6: in every run the observation log satisfies the happens-before check:
every `ComputeBlock` call is preceded in the log by the
`SaveExecutionResults` call of its parent (unless the parent was executed
before the run started); and in the fan-out scenario (1 ← 2, 1 ← 3 ← 4)
both completion orders of the siblings 2 and 3 yield exactly four
`ComputeBlock` invocations, with block 4 computed only after block 3 is
saved, and commitments persisted for all four blocks. -/
theorem C6_save_happens_before_child_compute :
    (∀ (sc sr : List (Nat × Nat)) (st : Option Nat) (evs : List Event),
      chainOK sc [] (run (initState sc sr st) evs).log = true) ∧
    computeIds (run (initState seedC seedR none) traceS2a).log = [1, 2, 3, 4] ∧
    computeIds (run (initState seedC seedR none) traceS2b).log = [1, 2, 3, 4] ∧
    saveLog (run (initState seedC seedR none) traceS2a).log = [1, 2, 3, 4] ∧
    saveLog (run (initState seedC seedR none) traceS2b).log = [1, 3, 2, 4] ∧
    alookup 1 (run (initState seedC seedR none) traceS2a).commits = some 201 ∧
    alookup 2 (run (initState seedC seedR none) traceS2a).commits = some 202 ∧
    alookup 3 (run (initState seedC seedR none) traceS2a).commits = some 203 ∧
    alookup 4 (run (initState seedC seedR none) traceS2a).commits = some 204 ∧
    alookup 4 (run (initState seedC seedR none) traceS2b).commits = some 204 := by
  refine ⟨?_, by decide, by decide, by decide, by decide, by decide, by decide,
    by decide, by decide, by decide⟩
  intro sc sr st evs
  exact (orderInv_run (orderInv_init sc sr st) evs).ok

/-- C7: on a computation completion for an executing block the engine
appends the upload call, the `SaveExecutionResults` call and the
`OnExecuted` notification to the log strictly in that order (before any
newly submitted children), persists the commitment, and removes the entry;
the two runs with a failing and a succeeding uploader produce identical
states apart from the recorded upload flag (so an upload error never blocks
persistence); and in the concrete failing-uploader scenario block 1's
commitment is persisted and its processing completes. -/
theorem C7_upload_save_onExecuted_order :
    (∀ (s : EngineState) (b c rid : Nat) (f : Bool) (e : QueueEntry),
      s.queue.find? (fun e => e.block.header.id == b && e.executing) = some e →
      (∃ cs, (finishExecution s b c rid f).log
        = s.log ++ [LogEvent.upload b f, LogEvent.save b, LogEvent.onExecuted b] ++ cs) ∧
      (finishExecution s b c rid f).commits = s.commits ++ [(b, c)] ∧
      (∀ e2 ∈ (finishExecution s b c rid f).queue, qid e2 ≠ b)) ∧
    (∀ (s : EngineState) (b c rid : Nat),
      eraseLog (finishExecution s b c rid true)
        = eraseLog (finishExecution s b c rid false)) ∧
    alookup 1 (run (initState seedC seedR none) traceUpload).commits = some 201 ∧
    (run (initState seedC seedR none) traceUpload).queue = [] ∧
    (run (initState seedC seedR none) traceUpload).log
      = [LogEvent.compute ⟨1, 0, 1⟩ 50, LogEvent.upload 1 true, LogEvent.save 1,
         LogEvent.onExecuted 1] := by
  refine ⟨?_, finishExecution_upload_immaterial, by decide, by decide, by decide⟩
  intro s b c rid f e hf
  exact finishExecution_structure s b c rid f e hf

theorem C7_upload_save_onExecuted_order_witness :
    (run (initState seedC seedR none) [Event.handleBlockEv (blk 1 0 1 [])]).queue.find?
        (fun e => e.block.header.id == 1 && e.executing)
      = some ⟨blk 1 0 1 [], true, 50⟩ ∧
    ((∃ cs, (finishExecution (run (initState seedC seedR none)
          [Event.handleBlockEv (blk 1 0 1 [])]) 1 201 51 true).log
        = (run (initState seedC seedR none) [Event.handleBlockEv (blk 1 0 1 [])]).log
          ++ [LogEvent.upload 1 true, LogEvent.save 1, LogEvent.onExecuted 1] ++ cs) ∧
     (finishExecution (run (initState seedC seedR none)
          [Event.handleBlockEv (blk 1 0 1 [])]) 1 201 51 true).commits
        = (run (initState seedC seedR none)
            [Event.handleBlockEv (blk 1 0 1 [])]).commits ++ [(1, 201)] ∧
     (∀ e2 ∈ (finishExecution (run (initState seedC seedR none)
          [Event.handleBlockEv (blk 1 0 1 [])]) 1 201 51 true).queue, qid e2 ≠ 1)) :=
  ⟨by decide, C7_upload_save_onExecuted_order.1
    (run (initState seedC seedR none) [Event.handleBlockEv (blk 1 0 1 [])])
    1 201 51 true ⟨blk 1 0 1 [], true, 50⟩ (by decide)⟩

/-- C8: delivering the same collection to the engine any number of times
N ≥ 1 is indistinguishable from delivering it once (the delivery step is
idempotent on any state), so there is exactly one call to the local
collection store; in the concrete scenario where block 2 waits for
collection 7 delivered twice, the store is called exactly once and each
dependent block is computed exactly once. -/
theorem C8_collection_delivery_idempotent :
    (∀ (s : EngineState) (c : Nat), onCollection (onCollection s c) c = onCollection s c) ∧
    (∀ (s : EngineState) (c : Nat) (n : Nat),
      (fun t => onCollection t c)^[n + 1] s = onCollection s c) ∧
    storeLog (run (initState seedC seedR none) traceCol).log = [7] ∧
    computeIds (run (initState seedC seedR none) traceCol).log = [1, 2] ∧
    alookup 2 (run (initState seedC seedR none) traceCol).commits = some 202 := by
  exact ⟨onCollection_idem, onCollection_iter, by decide, by decide, by decide⟩

/-- C9: when stop parameters with height H are set, a `BlockProcessable`
notification for a header of height ≥ H leaves the engine state completely
unchanged — armed or not — so the block body is never fetched from storage
(`blocks.ByID` is called zero times for it) and nothing is enqueued. -/
theorem C9_unarmed_stop_drops_notification :
    ∀ (s : EngineState) (b : Block) (stopH : Nat),
      s.stop = some stopH → stopH ≤ b.header.height →
      blockProcessable s b = s ∧
      byIDLog (blockProcessable s b).log = byIDLog s.log := by
  intro s b stopH hstop hh
  have heq := blockProcessable_stop_noop s b stopH hstop hh
  exact ⟨heq, by rw [heq]⟩

theorem C9_unarmed_stop_drops_notification_witness :
    (initState seedC seedR (some 2)).stop = some 2 ∧
    2 ≤ (blk 9 0 7 []).header.height ∧
    (blockProcessable (initState seedC seedR (some 2)) (blk 9 0 7 [])
        = initState seedC seedR (some 2) ∧
     byIDLog (blockProcessable (initState seedC seedR (some 2)) (blk 9 0 7 [])).log
        = byIDLog (initState seedC seedR (some 2)).log) :=
  ⟨rfl, by decide,
    C9_unarmed_stop_drops_notification (initState seedC seedR (some 2))
      (blk 9 0 7 []) 2 rfl (by decide)⟩

/-- C10: the chunk constructor sets both `Index` and `CollectionIndex` from
its collection-index argument (so the two fields are always equal), and
copies the transaction count and the total computation used from their
arguments. -/
theorem C10_chunk_constructor_fields
    (blockID collectionIndex startState numberOfTransactions eventCollection
      endState totalComputationUsed : Nat) :
    (NewChunk blockID collectionIndex startState numberOfTransactions
      eventCollection endState totalComputationUsed).index = collectionIndex ∧
    (NewChunk blockID collectionIndex startState numberOfTransactions
      eventCollection endState totalComputationUsed).collectionIndex = collectionIndex ∧
    (NewChunk blockID collectionIndex startState numberOfTransactions
      eventCollection endState totalComputationUsed).numberOfTransactions
        = numberOfTransactions ∧
    (NewChunk blockID collectionIndex startState numberOfTransactions
      eventCollection endState totalComputationUsed).totalComputationUsed
        = totalComputationUsed :=
  ⟨rfl, rfl, rfl, rfl⟩
